import Mathlib

/-!
A shallow embedding of `pdf_assembler.py` (class `PDFAssembler`) and proofs
about it.  Pages are modelled by their extracted text (`Page := String`);
a PDF file is a name, a byte size and an optional page list (`none` models
a file that `PdfReader` fails to open).  Filesystem paths are modelled as
strings `outDir ++ "/" ++ fileName`; the input directory is modelled as a
flat list of files (directory-component filtering such as `__MACOSX` is
outside the name-level model, the `._` prefix filter is kept).
-/

namespace PdfAssembler

/-- A page of a PDF document, identified with its extracted text
(`page.extract_text()` is the identity in the model; an extraction failure
is a page whose text is empty). -/
abbrev Page := String

/-- One input PDF file: base name, byte size (`stat().st_size`), and pages;
`content = none` models a file `pypdf.PdfReader` raises on. -/
structure PdfFile where
  name : String
  byteSize : Nat
  content : Option (List Page)
deriving DecidableEq

/-! ### Character and string helpers (Python string operations) -/

/-- ASCII decimal digit test, modelling `\d` / `str.isdigit` on the
inputs that occur here. -/
def isDigitCh (c : Char) : Bool := '0' ≤ c && c ≤ '9'

/-- Numeric value of a digit string, modelling `int(...)`. -/
def digitsVal (cs : List Char) : Nat :=
  cs.foldl (fun a c => 10 * a + (c.toNat - 48)) 0

/-- Match a literal character sequence at the head of a list; returns the
remainder on success. -/
def litAt : List Char → List Char → Option (List Char)
  | [], rest => some rest
  | _, [] => none
  | a :: as, b :: bs => if a = b then litAt as bs else none

/-- Substring test (Python `needle in haystack`). -/
def hasSub (needle : List Char) : List Char → Bool
  | [] => (litAt needle []).isSome
  | c :: cs => (litAt needle (c :: cs)).isSome || hasSub needle cs

/-- Lexicographic comparison of character lists by code point: Python
`str.__le__`. -/
def leCh : List Char → List Char → Bool
  | [], _ => true
  | _ :: _, [] => false
  | a :: as, b :: bs => if a = b then leCh as bs else decide (a < b)

/-- Whitespace splitting with empty tokens discarded: Python `str.split()`. -/
def splitWs : List Char → List Char → List (List Char)
  | [], acc => if acc.isEmpty then [] else [acc.reverse]
  | c :: cs, acc =>
    if c.isWhitespace then
      if acc.isEmpty then splitWs cs [] else acc.reverse :: splitWs cs []
    else splitWs cs (c :: acc)

/-- Tokens of a string, Python `name.split()`. -/
def tokensOf (s : String) : List String :=
  (splitWs s.toList []).map fun cs => String.mk cs

/-- File-name stem, Python `Path(filename).stem`: the name with its last
dot-suffix removed (a leading dot does not start a suffix). -/
def stemOf (name : String) : String :=
  let rev := name.toList.reverse
  let afterDot := rev.dropWhile (fun c => c ≠ '.')
  match afterDot with
  | [] => name
  | _ :: before =>
    if before.isEmpty then name else String.mk before.reverse

/-- Python `" ".join(parts)`. -/
def joinSpace : List String → String
  | [] => ""
  | [s] => s
  | s :: rest => s ++ " " ++ joinSpace rest

/-- Python `s.replace(" ", "")`. -/
def removeSpaces (s : String) : String :=
  String.mk (s.toList.filter fun c => c ≠ ' ')

/-- Python `s.strip()`. -/
def stripEnds (s : String) : String :=
  String.mk (((s.toList.dropWhile Char.isWhitespace).reverse.dropWhile
    Char.isWhitespace).reverse)

/-- Python `s or d` for strings: the empty string is falsy. -/
def orDefault (s d : String) : String := if s = "" then d else s

/-! ### `find_size_in_text`: the regex `Размер:\s*(\d+)` -/

/-- Try the marker pattern at the start of the character list: the literal
`Размер:`, then any whitespace, then at least one digit; returns the value
of the maximal digit run. -/
def sizeMarkerAt (cs : List Char) : Option Nat :=
  match litAt "Размер:".toList cs with
  | none => none
  | some rest =>
    let ds := (rest.dropWhile Char.isWhitespace).takeWhile isDigitCh
    if ds.isEmpty then none else some (digitsVal ds)

/-- Leftmost match of the marker pattern, modelling `re.search`. -/
def findSizeAux : List Char → Option Nat
  | [] => none
  | c :: cs =>
    match sizeMarkerAt (c :: cs) with
    | some v => some v
    | none => findSizeAux cs

/-- `PDFAssembler.find_size_in_text`. -/
def find_size_in_text (text : String) : Option Nat := findSizeAux text.toList

/-! ### `find_label_pages`: the page-pairing state machine -/

/-- Scanner state: the accumulated `size_pages` dict (insertion-ordered
association list of size ↦ (first page, second page)) plus the mutable
`current_size` / `first_page` variables. -/
structure ScanState where
  sizePages : List (Nat × Nat × Nat)
  currentSize : Option Nat
  firstPage : Option Nat
deriving DecidableEq

/-- Python dict assignment `d[k] = v`: overwrite in place, or append. -/
def upsert (k : Nat) (v : Nat × Nat) : List (Nat × Nat × Nat) → List (Nat × Nat × Nat)
  | [] => [(k, v.1, v.2)]
  | (k', v') :: rest =>
    if k' = k then (k, v.1, v.2) :: rest else (k', v') :: upsert k v rest

/-- Python dict lookup restricted to the value pair. -/
def alistLookup (k : Nat) : List (Nat × Nat × Nat) → Option (Nat × Nat)
  | [] => none
  | (k', a, b) :: rest => if k' = k then some (a, b) else alistLookup k rest

/-- One iteration of the page loop in `find_label_pages`: note that
`if size:` also rejects a detected marker of value `0`. -/
def scanStep (st : ScanState) (pageNum : Nat) (text : String) : ScanState :=
  match find_size_in_text text with
  | none => st
  | some s =>
    if s = 0 then st
    else
      match st.firstPage with
      | some fp =>
        if st.currentSize = some s then
          { sizePages := upsert s (fp, pageNum) st.sizePages,
            currentSize := none, firstPage := none }
        else { st with currentSize := some s, firstPage := some pageNum }
      | none => { st with currentSize := some s, firstPage := some pageNum }

/-- The page loop of `find_label_pages`. -/
def scanPages : ScanState → Nat → List String → ScanState
  | st, _, [] => st
  | st, i, t :: ts => scanPages (scanStep st i t) (i + 1) ts

/-- `PDFAssembler.find_label_pages`: an unreadable file is caught and
yields the empty map. -/
def find_label_pages (f : PdfFile) : List (Nat × Nat × Nat) :=
  match f.content with
  | none => []
  | some pages => (scanPages ⟨[], none, none⟩ 0 pages).sizePages

/-! ### `extract_kiz_info`: the file-name parser -/

/-- The fixed catalog `self.size_order`. -/
def size_order : List Nat := [42, 44, 46, 48, 50, 52, 54, 56]

/-- Parser output, the dict `{"article": ..., "color": ..., "size": ...}`. -/
structure KizInfo where
  article : String
  color : String
  size : String
deriving DecidableEq

/-- Step 1 of the size search: iterate the given token list (called on the
reversed tokens) and return the first purely numeric token whose value is a
catalog size; non-catalog numeric tokens do not stop the search. -/
def firstValidSize : List String → Option Nat
  | [] => none
  | p :: ps =>
    let cs := p.toList
    if !cs.isEmpty && cs.all isDigitCh then
      let n := digitsVal cs
      if size_order.contains n then some n else firstValidSize ps
    else firstValidSize ps

/-- Case folding for the four Cyrillic letters of the literal `разм`
(`re.IGNORECASE`). -/
def foldRazm (c : Char) : Char :=
  if c = 'Р' then 'р'
  else if c = 'А' then 'а'
  else if c = 'З' then 'з'
  else if c = 'М' then 'м'
  else c

/-- Try the pattern `(\d{2})\s*разм` (case-insensitive) at the start of the
character list. -/
def razmAt (cs : List Char) : Option Nat :=
  match cs with
  | a :: b :: rest =>
    if isDigitCh a && isDigitCh b then
      let rest2 := (rest.dropWhile Char.isWhitespace).map foldRazm
      if (litAt "разм".toList rest2).isSome then some (digitsVal [a, b]) else none
    else none
  | _ => none

/-- Leftmost match of the `(\d{2})\s*разм` pattern. -/
def findRazm : List Char → Option Nat
  | [] => none
  | c :: cs =>
    match razmAt (c :: cs) with
    | some v => some v
    | none => findRazm cs

/-- Index of the first occurrence of a string in a token list
(Python `parts.index(size)`, total here, only used under a membership
guard). -/
def idxOfStr (s : String) : List String → Nat
  | [] => 0
  | p :: ps => if p = s then 0 else idxOfStr s ps + 1

/-- `PDFAssembler.extract_kiz_info`. -/
def extract_kiz_info (filename : String) : KizInfo :=
  let name := stemOf filename
  let parts := tokensOf name
  let size :=
    match firstValidSize parts.reverse with
    | some n => Nat.repr n
    | none =>
      match findRazm name.toList with
      | some n => if size_order.contains n then Nat.repr n else ""
      | none => ""
  let article := if 2 ≤ parts.length then joinSpace (parts.take 2) else ""
  let color :=
    if size ≠ "" then
      if parts.contains size then
        let idx := idxOfStr size parts
        if 2 < idx then joinSpace ((parts.drop 2).take (idx - 2))
        else joinSpace (parts.drop 2)
      else joinSpace (parts.drop 2)
    else joinSpace (parts.drop 2)
  ⟨article, color, size⟩

/-! ### The per-file records built in `process` step 4 -/

/-- The dict `{"file": f, "info": info, "size": s}` of `process`. -/
structure KizItem where
  file : PdfFile
  info : KizInfo
  size : Option Nat
deriving DecidableEq

/-- `int(info["size"]) if info["size"].isdigit() else None`. -/
def parsedSizeNat (s : String) : Option Nat :=
  let cs := s.toList
  if !cs.isEmpty && cs.all isDigitCh then some (digitsVal cs) else none

/-- Name order on files, the key of Python `sorted(kiz_files)` (all input
files live in one directory, so path order is name order). -/
def fileLe (a b : PdfFile) : Prop := leCh a.name.toList b.name.toList = true

instance : DecidableRel fileLe := fun _a _b => instDecidableEqBool _ true

/-- Name order lifted to indexed items, the key of
`unknown_items.sort(key=lambda x: x["file"].name)`. -/
def idxItemLe (a b : Nat × KizItem) : Prop :=
  leCh a.2.file.name.toList b.2.file.name.toList = true

instance : DecidableRel idxItemLe := fun _a _b => instDecidableEqBool _ true

/-- The loop of step 4: build one record per code file, in name order.
`List.insertionSort` with a non-strict order is a stable sort, like
Python `sorted`. -/
def kizItemsOf (kizFiles : List PdfFile) : List KizItem :=
  (List.insertionSort fileLe kizFiles).map fun f =>
    let info := extract_kiz_info f.name
    ⟨f, info, parsedSizeNat info.size⟩

/-- The `known_sizes` set (`if s:` also drops a parsed 0). -/
def knownSizes (items : List KizItem) : List Nat :=
  items.filterMap fun it =>
    match it.size with
    | some s => if s ≠ 0 then some s else none
    | none => none

/-- `missing_sizes = [s for s in self.size_order if s not in known_sizes]`. -/
def missingSizes (items : List KizItem) : List Nat :=
  size_order.filter fun s => !(knownSizes items).contains s

/-! ### Step 5: the positional fallback -/

/-- Pair every list element with its position. -/
def withIdx (k : Nat) : List α → List (Nat × α)
  | [] => []
  | a :: as => (k, a) :: withIdx (k + 1) as

/-- Association-list lookup on `Nat` keys. -/
def lookupNat (k : Nat) : List (Nat × Nat) → Option Nat
  | [] => none
  | (k', v) :: rest => if k' = k then some v else lookupNat k rest

/-- The unresolved records of step 5, tagged with their position in
`kiz_infos` and sorted by file name (Python sorts the list of dict
references in place; positions model the references). -/
def sortedUnknowns (items : List KizItem) : List (Nat × KizItem) :=
  List.insertionSort idxItemLe ((withIdx 0 items).filter fun p => p.2.size.isNone)

/-- The in-place mutation of the eligible branch: the i-th unresolved
record in name order receives the i-th missing size (`zip` truncates at
the shorter list, as in Python). -/
def applyFallback (items : List KizItem) (missing : List Nat) : List KizItem :=
  let assign := ((sortedUnknowns items).zip missing).map fun pv => (pv.1.1, pv.2)
  (withIdx 0 items).map fun p =>
    match lookupNat p.1 assign with
    | some s => { p.2 with size := some s, info := { p.2.info with size := Nat.repr s } }
    | none => p.2

/-- The guard of step 5:
`unknown_items and len(kiz_files) == len(size_order) and
len(unknown_items) == len(missing_sizes)`. -/
def fallbackEligible (numKiz : Nat) (items : List KizItem) : Bool :=
  !(items.filter fun it => it.size.isNone).isEmpty &&
    numKiz == size_order.length &&
    (items.filter fun it => it.size.isNone).length == (missingSizes items).length

/-- Step 5 as a whole: apply the fallback when eligible, otherwise the
unresolved records are only logged and left unchanged. -/
def resolveSizes (numKiz : Nat) (items : List KizItem) : List KizItem :=
  if fallbackEligible numKiz items then applyFallback items (missingSizes items)
  else items

/-! ### Steps 6–7: assembly, naming, combined document -/

/-- The page-appending loop of `assemble_pdf_for_size`: for each code page
emit label page 1, label page 2, then the code page twice. -/
def assemblePages (tovar qadoq : Page) (kizPages : List Page) : List Page :=
  kizPages.foldl (fun acc p => acc ++ [tovar, qadoq, p, p]) []

/-- `PDFAssembler.assemble_pdf_for_size` on an already-selected label page
pair: `none` models the caught `PdfReader` failure (0 pages, no file
written). -/
def assemble_pdf_for_size (tovar qadoq : Page) (kizContent : Option (List Page)) :
    Option (List Page) :=
  match kizContent with
  | none => none
  | some ps => some (assemblePages tovar qadoq ps)

/-- The per-size output file name built in `process`:
`Сборка_{article_safe}_{color_safe}_{size}.pdf`. -/
def outputFilename (info : KizInfo) (size : Nat) : String :=
  "Сборка_" ++ removeSpaces (orDefault info.article "NOARTICLE") ++ "_" ++
    stripEnds (orDefault info.color "NOCOLOR") ++ "_" ++ Nat.repr size ++ ".pdf"

/-- The combined file name: `Сборка_{article}_{color}_все_размеры.pdf`
(no placeholders, color verbatim). -/
def combinedFilename (info : KizInfo) : String :=
  "Сборка_" ++ removeSpaces info.article ++ "_" ++ info.color ++ "_все_размеры.pdf"

/-- What one iteration of the assembly loop produces for a record, if
anything: the guard `if size and size in size_pages`, the label page
lookups (an out-of-range index would be caught as a failure) and the code
file read; the `Nat` component is the returned page count
`kiz_page_count * 4`. -/
def emitFor (outDir : String) (labelPages : List Page) (sp : List (Nat × Nat × Nat))
    (it : KizItem) : Option (String × List Page × Nat) :=
  match it.size with
  | none => none
  | some s =>
    if s = 0 then none
    else
      match alistLookup s sp with
      | none => none
      | some (tp, qp) =>
        match it.file.content with
        | none => none
        | some kz =>
          match labelPages[tp]?, labelPages[qp]? with
          | some tpg, some qpg =>
            some (outDir ++ "/" ++ outputFilename it.info s,
              assemblePages tpg qpg kz, kz.length * 4)
          | _, _ => none

/-- One iteration of the assembly loop: on success the output file is
written, and recorded in `created_files` only when the returned page count
is positive. -/
def assembleStep (outDir : String) (labelPages : List Page)
    (sp : List (Nat × Nat × Nat)) (acc : List (String × List Page) × List String)
    (it : KizItem) : List (String × List Page) × List String :=
  match emitFor outDir labelPages sp it with
  | none => acc
  | some (p, pgs, cnt) =>
    (acc.1 ++ [(p, pgs)], if 0 < cnt then acc.2 ++ [p] else acc.2)

/-- `PDFAssembler.create_combined_pdf` as a function from readable files
(path, pages) to the combined page sequence: for each catalog size in
order, append every file whose path contains `_{size}.pdf`. -/
def create_combined_pdf (files : List (String × List Page)) : List Page :=
  size_order.foldl
    (fun acc s =>
      files.foldl
        (fun acc2 f =>
          if hasSub ("_" ++ Nat.repr s ++ ".pdf").toList f.1.toList then acc2 ++ f.2
          else acc2)
        acc)
    []

/-- Read back a written file: the last write to a path wins. -/
def readLast (written : List (String × List Page)) (p : String) : List Page :=
  match (written.filter fun e => e.1 = p).getLast? with
  | some e => e.2
  | none => []

/-! ### `process`: the pipeline -/

/-- The discovered inputs after the platform-artifact filter. -/
def allPdfs (files : List PdfFile) : List PdfFile :=
  files.filter fun f => !(litAt "._".toList f.name.toList).isSome

/-- Python `max(all_pdfs, key=lambda f: f.stat().st_size)`: the first file
of maximal byte size. -/
def maxByByteSize : PdfFile → List PdfFile → PdfFile
  | best, [] => best
  | best, f :: fs => maxByByteSize (if best.byteSize < f.byteSize then f else best) fs

/-- The label file, when any input exists. -/
def labelFileOf (files : List PdfFile) : Option PdfFile :=
  match allPdfs files with
  | [] => none
  | f :: fs => some (maxByByteSize f fs)

/-- `kiz_files = [f for f in all_pdfs if f != label_file]`. -/
def kizFilesOf (files : List PdfFile) : List PdfFile :=
  match labelFileOf files with
  | none => []
  | some lb => (allPdfs files).filter fun f => f ≠ lb

/-- The records after steps 4 and 5. -/
def itemsOf (files : List PdfFile) : List KizItem :=
  resolveSizes (kizFilesOf files).length (kizItemsOf (kizFilesOf files))

/-- The whole assembly loop of step 6, accumulating written files and
`created_files`. -/
def perSizeFold (outDir : String) (labelPages : List Page) (sp : List (Nat × Nat × Nat))
    (items : List KizItem) : List (String × List Page) × List String :=
  items.foldl (assembleStep outDir labelPages sp) ([], [])

/-- The outcome of a run: the returned success flag and
`created_files` list, plus the files written to the output directory. -/
structure ProcessResult where
  ok : Bool
  created : List String
  written : List (String × List Page)
deriving DecidableEq

/-- `PDFAssembler.process`.  `Except.error ()` models an exception that
escapes `process` (the unguarded `PdfReader(label_file)` on an unreadable
label, or `kiz_infos[0]` on an empty list — the latter is unreachable). -/
def process (createCombined : Bool) (outDir : String) (files : List PdfFile) :
    Except Unit ProcessResult :=
  match labelFileOf files with
  | none => .ok ⟨false, [], []⟩
  | some label =>
    match label.content with
    | none => .error ()
    | some labelPages =>
      let sp := find_label_pages label
      if sp.isEmpty then .ok ⟨false, [], []⟩
      else
        let items := itemsOf files
        let pr := perSizeFold outDir labelPages sp items
        if createCombined && !pr.2.isEmpty then
          match items with
          | [] => .error ()
          | it0 :: _ =>
            let cpath := outDir ++ "/" ++ combinedFilename it0.info
            let cpages := create_combined_pdf (pr.2.map fun p => (p, readLast pr.1 p))
            .ok ⟨true, pr.2 ++ [cpath], pr.1 ++ [(cpath, cpages)]⟩
        else .ok ⟨true, pr.2, pr.1⟩

/-! ### Auxiliary notions used in statements -/

/-- Invariant of the label scan: every emitted pair is strictly
increasing, the map keys are distinct, and a pending first page lies
before the current page index. -/
def ScanInv (st : ScanState) (i : Nat) : Prop :=
  (∀ e ∈ st.sizePages, e.2.1 < e.2.2) ∧
  (st.sizePages.map fun e => e.1).Nodup ∧
  (∀ j, st.firstPage = some j → j < i)

/-- A label document made of well-formed marker blocks: each block is some
marker-free junk followed by two consecutive pages bearing the same
marker, with marker-free junk at the end. -/
def blockPages (blocks : List (List String × String × Nat)) (tailJunk : List String) :
    List String :=
  (blocks.flatMap fun b => b.1 ++ [b.2.1, b.2.1]) ++ tailJunk

/-- A demonstration input of eight code files: four whose names parse to
sizes 42, 44, 46, 48 and four with no parsable size. -/
def demoFiles8 : List PdfFile :=
  [⟨"k1 a b 42.pdf", 1, some ["A"]⟩, ⟨"k2 a b 44.pdf", 1, some ["A"]⟩,
    ⟨"k3 a b 46.pdf", 1, some ["A"]⟩, ⟨"k4 a b 48.pdf", 1, some ["A"]⟩,
    ⟨"u1 x.pdf", 1, some ["A"]⟩, ⟨"u2 x.pdf", 1, some ["A"]⟩,
    ⟨"u3 x.pdf", 1, some ["A"]⟩, ⟨"u4 x.pdf", 1, some ["A"]⟩]

/-! ### Spec-side definitions (written from the specification's words, for
comparison with the code-side definitions above) -/

/-- Modelled from the spec: the claimed article rule, "first two whitespace
tokens joined by a single space when at least two tokens exist, and all
tokens when fewer than two exist". -/
def claimArticleOf (parts : List String) : String :=
  if 2 ≤ parts.length then joinSpace (parts.take 2) else joinSpace parts

/-- The article rule the code implements: first two tokens joined when at
least two exist, empty otherwise. -/
def specArticleOf (parts : List String) : String :=
  if 2 ≤ parts.length then joinSpace (parts.take 2) else ""

/-- The color rule the code implements: the tokens strictly between index 2
and the first index of the size string when the size string occurs as a
token at first index greater than 2; all tokens from index 2 onward
otherwise. -/
def specColorOf (parts : List String) (size : String) : String :=
  if size ≠ "" ∧ size ∈ parts ∧ 2 < idxOfStr size parts then
    joinSpace ((parts.drop 2).take (idxOfStr size parts - 2))
  else joinSpace (parts.drop 2)

/-- Modelled from the spec: the claimed per-size output name template
`<prefix>_<articleNoSpaces><color>_<size>.<ext>` with no separator between
article and color, placeholders substituted for empty fields. -/
def claimPerSizeName (article color : String) (size : Nat) : String :=
  "Сборка_" ++ removeSpaces (orDefault article "NOARTICLE") ++
    orDefault color "NOCOLOR" ++ "_" ++ Nat.repr size ++ ".pdf"

/-- Modelled from the spec: the claimed combined name template
`<prefix>_<articleNoSpaces><color>_<all-sizes-token>.<ext>`. -/
def claimCombinedName (article color : String) : String :=
  "Сборка_" ++ removeSpaces article ++ color ++ "_все_размеры.pdf"

end PdfAssembler

namespace PdfAssembler

/-! ### General lemmas about the embedding -/

theorem assemblePages_foldl (t q : Page) (ps : List Page) (acc : List Page) :
    ps.foldl (fun a p => a ++ [t, q, p, p]) acc = acc ++ ps.flatMap fun p => [t, q, p, p] := by
  induction ps generalizing acc with
  | nil => simp
  | cons p ps ih => simp [List.foldl, ih]

theorem assemblePages_eq (t q : Page) (ps : List Page) :
    assemblePages t q ps = ps.flatMap fun p => [t, q, p, p] := by
  simp [assemblePages, assemblePages_foldl]

theorem length_bind_four (t q : Page) (ps : List Page) :
    (ps.flatMap fun p => [t, q, p, p]).length = 4 * ps.length := by
  induction ps with
  | nil => simp
  | cons p ps ih => simp [ih]; omega

theorem scanPages_append (st : ScanState) (i : Nat) (xs ys : List String) :
    scanPages st i (xs ++ ys) = scanPages (scanPages st i xs) (i + xs.length) ys := by
  induction xs generalizing st i with
  | nil => simp [scanPages]
  | cons x xs ih =>
    show scanPages (scanStep st i x) (i + 1) (xs ++ ys) = _
    rw [ih]
    show _ = scanPages (scanPages (scanStep st i x) (i + 1) xs) (i + (xs.length + 1)) ys
    congr 1
    omega

theorem upsert_map_fst (k : Nat) (v : Nat × Nat) (l : List (Nat × Nat × Nat)) :
    (upsert k v l).map (fun e => e.1) =
      if k ∈ l.map (fun e => e.1) then l.map (fun e => e.1)
      else l.map (fun e => e.1) ++ [k] := by
  induction l with
  | nil => simp [upsert]
  | cons e l ih =>
    by_cases h : e.1 = k
    · simp [upsert, h]
    · have : upsert k v (e :: l) = e :: upsert k v l := by
        cases e with
        | mk k' v' => simp [upsert, h]
      rw [this]
      simp only [List.map_cons, ih]
      by_cases hm : k ∈ l.map (fun e => e.1)
      · simp [hm, Ne.symm h]
      · simp [hm, Ne.symm h]

theorem upsert_mem (k : Nat) (v : Nat × Nat) (l : List (Nat × Nat × Nat)) :
    ∀ e ∈ upsert k v l, e = (k, v.1, v.2) ∨ e ∈ l := by
  induction l with
  | nil => simp [upsert]
  | cons e0 l ih =>
    intro e he
    cases e0 with
    | mk k' v' =>
      by_cases h : k' = k
      · rw [show upsert k v ((k', v') :: l) = (k, v.1, v.2) :: l by simp [upsert, h],
          List.mem_cons] at he
        rcases he with h1 | h1
        · exact Or.inl h1
        · exact Or.inr (List.mem_cons_of_mem _ h1)
      · rw [show upsert k v ((k', v') :: l) = (k', v') :: upsert k v l by simp [upsert, h],
          List.mem_cons] at he
        rcases he with h1 | h1
        · exact Or.inr (by simp [h1])
        · rcases ih e h1 with h2 | h2
          · exact Or.inl h2
          · exact Or.inr (List.mem_cons_of_mem _ h2)

theorem upsert_nodup_keys (k : Nat) (v : Nat × Nat) (l : List (Nat × Nat × Nat))
    (h : (l.map fun e => e.1).Nodup) : ((upsert k v l).map fun e => e.1).Nodup := by
  rw [upsert_map_fst]
  by_cases hm : k ∈ l.map (fun e => e.1)
  · simpa [hm] using h
  · simp only [hm, if_neg, ite_false]
    exact List.Nodup.append h (List.nodup_singleton k) (by simpa using hm)

theorem upsert_of_fresh (k : Nat) (v : Nat × Nat) (l : List (Nat × Nat × Nat))
    (h : k ∉ l.map fun e => e.1) : upsert k v l = l ++ [(k, v.1, v.2)] := by
  induction l with
  | nil => simp [upsert]
  | cons e0 l ih =>
    cases e0 with
    | mk k' v' =>
      simp only [List.map_cons, List.mem_cons] at h
      push_neg at h
      simp [upsert, Ne.symm h.1, ih h.2]

theorem scanStep_inv (st : ScanState) (i : Nat) (t : String) (h : ScanInv st i) :
    ScanInv (scanStep st i t) (i + 1) := by
  obtain ⟨h1, h2, h3⟩ := h
  unfold scanStep
  cases hf : find_size_in_text t with
  | none => exact ⟨h1, h2, fun j hj => Nat.lt_succ_of_lt (h3 j hj)⟩
  | some s =>
    by_cases hs : s = 0
    · simp only [hs, if_pos rfl]
      exact ⟨h1, h2, fun j hj => Nat.lt_succ_of_lt (h3 j hj)⟩
    · simp only [if_neg hs]
      cases hfp : st.firstPage with
      | none =>
        refine ⟨h1, h2, fun j hj => ?_⟩
        simp at hj
        omega
      | some fp =>
        by_cases hc : st.currentSize = some s
        · simp only [if_pos hc]
          refine ⟨?_, upsert_nodup_keys _ _ _ h2, by simp⟩
          intro e he
          rcases upsert_mem _ _ _ e he with h4 | h4
          · subst h4
            exact h3 fp hfp
          · exact h1 e h4
        · simp only [if_neg hc]
          refine ⟨h1, h2, fun j hj => ?_⟩
          simp at hj
          omega

theorem scanPages_inv (ts : List String) (st : ScanState) (i : Nat) (h : ScanInv st i) :
    ScanInv (scanPages st i ts) (i + ts.length) := by
  induction ts generalizing st i with
  | nil => simpa [scanPages] using h
  | cons t ts ih =>
    show ScanInv (scanPages (scanStep st i t) (i + 1) ts) _
    have := ih (scanStep st i t) (i + 1) (scanStep_inv st i t h)
    have harith : i + 1 + ts.length = i + (ts.length + 1) := by omega
    rwa [harith] at this

theorem scanPages_junk (ts : List String) (h : ∀ t ∈ ts, find_size_in_text t = none) :
    ∀ st i, scanPages st i ts = st := by
  induction ts with
  | nil => intro st i; rfl
  | cons t ts ih =>
    intro st i
    have ht : find_size_in_text t = none := h t (List.mem_cons_self t ts)
    show scanPages (scanStep st i t) (i + 1) ts = st
    have hstep : scanStep st i t = st := by simp [scanStep, ht]
    rw [hstep]
    exact ih (fun u hu => h u (List.mem_cons_of_mem t hu)) st (i + 1)

theorem scanPages_marker_block (sp : List (Nat × Nat × Nat)) (i : Nat) (t : String)
    (s : Nat) (h : find_size_in_text t = some s) (hs : s ≠ 0) :
    scanPages ⟨sp, none, none⟩ i [t, t] = ⟨upsert s (i, i + 1) sp, none, none⟩ := by
  show scanPages (scanStep ⟨sp, none, none⟩ i t) (i + 1) [t] = _
  have h1 : scanStep ⟨sp, none, none⟩ i t = ⟨sp, some s, some i⟩ := by
    simp [scanStep, h, hs]
  rw [h1]
  show scanPages (scanStep ⟨sp, some s, some i⟩ (i + 1) t) (i + 2) [] = _
  have h2 : scanStep ⟨sp, some s, some i⟩ (i + 1) t =
      ⟨upsert s (i, i + 1) sp, none, none⟩ := by
    simp [scanStep, h, hs]
  rw [h2]
  rfl

theorem scan_blocks (blocks : List (List String × String × Nat))
    (hjunk : ∀ b ∈ blocks, ∀ t ∈ b.1, find_size_in_text t = none)
    (hmark : ∀ b ∈ blocks, find_size_in_text b.2.1 = some b.2.2 ∧ b.2.2 ≠ 0)
    (hnodup : (blocks.map fun b => b.2.2).Nodup) :
    ∀ (sp : List (Nat × Nat × Nat)) (i : Nat),
      (∀ s ∈ blocks.map fun b => b.2.2, s ∉ sp.map fun e => e.1) →
      ∃ sp', scanPages ⟨sp, none, none⟩ i (blocks.flatMap fun b => b.1 ++ [b.2.1, b.2.1]) =
          ⟨sp', none, none⟩ ∧
        (sp'.map fun e => e.1) = (sp.map fun e => e.1) ++ (blocks.map fun b => b.2.2) := by
  induction blocks with
  | nil =>
    intro sp i _
    exact ⟨sp, rfl, by simp⟩
  | cons b bs ih =>
    intro sp i hfresh
    have hb := hmark b (List.mem_cons_self b bs)
    rw [List.flatMap_cons, scanPages_append, scanPages_append,
      scanPages_junk b.1 (hjunk b (List.mem_cons_self b bs)) _ i,
      scanPages_marker_block sp _ b.2.1 b.2.2 hb.1 hb.2]
    have hfreshb : b.2.2 ∉ sp.map fun e => e.1 :=
      hfresh b.2.2 (by simp)
    rw [upsert_of_fresh _ _ _ hfreshb]
    have hfresh' : ∀ s ∈ bs.map fun b => b.2.2,
        s ∉ (sp ++ [(b.2.2, i + b.1.length, i + b.1.length + 1)]).map fun e => e.1 := by
      intro s hsmem
      simp only [List.map_append, List.mem_append, List.map_cons, List.map_nil,
        List.mem_singleton]
      push_neg
      constructor
      · exact hfresh s (by simp; right; simpa using hsmem)
      · simp only [List.map_cons, List.nodup_cons] at hnodup
        intro hcontr
        exact hnodup.1 (hcontr ▸ hsmem)
    obtain ⟨sp', heq, hkeys⟩ :=
      ih (fun b' hb' => hjunk b' (List.mem_cons_of_mem b hb'))
        (fun b' hb' => hmark b' (List.mem_cons_of_mem b hb'))
        (by simp only [List.map_cons, List.nodup_cons] at hnodup; exact hnodup.2)
        (sp ++ [(b.2.2, i + b.1.length, i + b.1.length + 1)]) _ hfresh'
    refine ⟨sp', ?_, ?_⟩
    · rw [← heq]
    · rw [hkeys]
      simp

end PdfAssembler

namespace PdfAssembler

/-- C8: every entry of the label scan's result map is a strictly
increasing pair of page indices, each size occurs at most once as a key,
and a label document made of N well-formed consecutive marker pairs of
distinct non-zero sizes (with arbitrary marker-free pages around them)
produces exactly N entries, keyed by exactly those sizes. -/
theorem c8_scan_result_shape :
    (∀ (f : PdfFile), ∀ e ∈ find_label_pages f, e.2.1 < e.2.2) ∧
    (∀ f : PdfFile, ((find_label_pages f).map fun e => e.1).Nodup) ∧
    (∀ (nm : String) (bsz : Nat) (blocks : List (List String × String × Nat))
        (tailJunk : List String),
      (∀ b ∈ blocks, ∀ t ∈ b.1, find_size_in_text t = none) →
      (∀ t ∈ tailJunk, find_size_in_text t = none) →
      (∀ b ∈ blocks, find_size_in_text b.2.1 = some b.2.2 ∧ b.2.2 ≠ 0) →
      (blocks.map fun b => b.2.2).Nodup →
      ((find_label_pages ⟨nm, bsz, some (blockPages blocks tailJunk)⟩).map fun e => e.1) =
          (blocks.map fun b => b.2.2) ∧
        (find_label_pages ⟨nm, bsz, some (blockPages blocks tailJunk)⟩).length =
          blocks.length) := by
  have hinv : ∀ (pages : List String),
      ScanInv (scanPages ⟨[], none, none⟩ 0 pages) pages.length := by
    intro pages
    have h0 : ScanInv ⟨[], none, none⟩ 0 := by
      refine ⟨by simp, by simp, fun j hj => by simp at hj⟩
    simpa using scanPages_inv pages ⟨[], none, none⟩ 0 h0
  refine ⟨?_, ?_, ?_⟩
  · intro f e he
    cases hc : f.content with
    | none => simp [find_label_pages, hc] at he
    | some pages =>
      have := (hinv pages).1 e (by simpa [find_label_pages, hc] using he)
      exact this
  · intro f
    cases hc : f.content with
    | none => simp [find_label_pages, hc]
    | some pages =>
      simpa [find_label_pages, hc] using (hinv pages).2.1
  · intro nm bsz blocks tailJunk hjunk htail hmark hnodup
    obtain ⟨sp', heq, hkeys⟩ := scan_blocks blocks hjunk hmark hnodup [] 0 (by simp)
    have hfl : find_label_pages ⟨nm, bsz, some (blockPages blocks tailJunk)⟩ = sp' := by
      simp only [find_label_pages, blockPages]
      rw [scanPages_append, heq, scanPages_junk tailJunk htail]
    rw [hfl]
    simp only [List.map_nil, List.nil_append] at hkeys
    refine ⟨by simpa using hkeys, ?_⟩
    have := congrArg List.length hkeys
    simpa using this

theorem leCh_total : ∀ a b : List Char, leCh a b = true ∨ leCh b a = true := by
  intro a
  induction a with
  | nil => intro b; left; rfl
  | cons c as ih =>
    intro b
    cases b with
    | nil => right; rfl
    | cons d bs =>
      by_cases h : c = d
      · subst h
        simpa [leCh] using ih bs
      · simp only [leCh, if_neg h, if_neg (Ne.symm h), decide_eq_true_eq]
        exact lt_or_gt_of_ne h

theorem leCh_trans : ∀ a b c : List Char, leCh a b = true → leCh b c = true →
    leCh a c = true := by
  intro a
  induction a with
  | nil => intro b c _ _; rfl
  | cons x as ih =>
    intro b c hab hbc
    cases b with
    | nil => simp [leCh] at hab
    | cons y bs =>
      cases c with
      | nil => simp [leCh] at hbc
      | cons z cs =>
        by_cases hxy : x = y
        · subst hxy
          simp only [leCh, if_pos rfl] at hab
          by_cases hyz : x = z
          · subst hyz
            simp only [leCh, if_pos rfl] at hbc ⊢
            exact ih bs cs hab hbc
          · simp only [leCh, if_neg hyz] at hbc ⊢
            exact hbc
        · simp only [leCh, if_neg hxy, decide_eq_true_eq] at hab
          by_cases hyz : y = z
          · subst hyz
            simp [leCh, hxy, hab]
          · simp only [leCh, if_neg hyz, decide_eq_true_eq] at hbc
            have hxz : x < z := lt_trans hab hbc
            simp [leCh, ne_of_lt hxz, hxz]

theorem withIdx_getElem? (l : List α) (k i : Nat) :
    (withIdx k l)[i]? = l[i]?.map fun a => (k + i, a) := by
  induction l generalizing k i with
  | nil => simp [withIdx]
  | cons a as ih =>
    cases i with
    | zero => simp [withIdx]
    | succ n =>
      simp only [withIdx, List.getElem?_cons_succ]
      rw [ih (k + 1) n]
      have harith : k + 1 + n = k + (n + 1) := by omega
      rw [harith]

theorem mem_withIdx (l : List α) (k : Nat) (p : Nat × α) (h : p ∈ withIdx k l) :
    k ≤ p.1 ∧ l[p.1 - k]? = some p.2 := by
  induction l generalizing k with
  | nil => simp [withIdx] at h
  | cons a as ih =>
    rw [show withIdx k (a :: as) = (k, a) :: withIdx (k + 1) as from rfl,
      List.mem_cons] at h
    rcases h with h | h
    · subst h
      simp
    · obtain ⟨h1, h2⟩ := ih (k + 1) h
      refine ⟨by omega, ?_⟩
      have : p.1 - k = (p.1 - (k + 1)) + 1 := by omega
      rw [this]
      simpa using h2

theorem withIdx_fst_bounded (l : List α) (k : Nat) :
    ∀ j ∈ (withIdx k l).map fun p => p.1, k ≤ j := by
  intro j hj
  simp only [List.mem_map] at hj
  obtain ⟨p, hp, hpe⟩ := hj
  exact hpe ▸ (mem_withIdx l k p hp).1

theorem withIdx_fst_nodup (l : List α) (k : Nat) :
    ((withIdx k l).map fun p => p.1).Nodup := by
  induction l generalizing k with
  | nil => simp [withIdx]
  | cons a as ih =>
    rw [show withIdx k (a :: as) = (k, a) :: withIdx (k + 1) as from rfl]
    simp only [List.map_cons, List.nodup_cons]
    refine ⟨fun hmem => ?_, ih (k + 1)⟩
    have := withIdx_fst_bounded as (k + 1) k hmem
    omega

theorem lookupNat_eq_none (k : Nat) (l : List (Nat × Nat))
    (h : k ∉ l.map fun p => p.1) : lookupNat k l = none := by
  induction l with
  | nil => rfl
  | cons p l ih =>
    simp only [List.map_cons, List.mem_cons] at h
    push_neg at h
    cases p with
    | mk k' v => simpa [lookupNat, Ne.symm h.1] using ih h.2

theorem lookupNat_mem_keys (k : Nat) (v : Nat) (l : List (Nat × Nat))
    (h : lookupNat k l = some v) : k ∈ l.map fun p => p.1 := by
  by_contra hc
  rw [lookupNat_eq_none k l hc] at h
  exact Option.noConfusion h

theorem lookupNat_of_mem_nodup (k : Nat) (v : Nat) (l : List (Nat × Nat))
    (hn : (l.map fun p => p.1).Nodup) (hm : (k, v) ∈ l) : lookupNat k l = some v := by
  induction l with
  | nil => simp at hm
  | cons p l ih =>
    simp only [List.map_cons, List.nodup_cons] at hn
    rw [List.mem_cons] at hm
    cases p with
    | mk k' v' =>
      rcases hm with hm | hm
      · cases hm
        simp [lookupNat]
      · have hk : k' ≠ k := by
          intro he
          subst he
          exact hn.1 (by simpa using List.mem_map_of_mem (fun p => p.1) hm)
        simpa [lookupNat, hk] using ih hn.2 hm

theorem zip_getElem?_of (l : List α) (m : List β) (j : Nat) (a : α) (b : β)
    (ha : l[j]? = some a) (hb : m[j]? = some b) : (l.zip m)[j]? = some (a, b) := by
  induction l generalizing m j with
  | nil => simp at ha
  | cons x xs ih =>
    cases m with
    | nil => simp at hb
    | cons y ys =>
      cases j with
      | zero =>
        simp only [List.getElem?_cons_zero, Option.some_inj] at ha hb
        simp [List.zip_cons_cons, ha, hb]
      | succ n =>
        simp only [List.getElem?_cons_succ] at ha hb
        simpa [List.zip_cons_cons] using ih ys n ha hb

theorem map_fst_zip_eq_take (l : List α) (m : List β) :
    (l.zip m).map Prod.fst = l.take m.length := by
  induction l generalizing m with
  | nil => simp
  | cons x xs ih =>
    cases m with
    | nil => simp
    | cons y ys => simp [List.zip_cons_cons, ih]

theorem fallbackEligible_iff (n : Nat) (items : List KizItem) :
    fallbackEligible n items = true ↔
      ((items.filter fun it => it.size.isNone) ≠ [] ∧ n = size_order.length ∧
        (items.filter fun it => it.size.isNone).length = (missingSizes items).length) := by
  simp only [fallbackEligible, Bool.and_eq_true, Bool.not_eq_true', beq_iff_eq,
    List.isEmpty_eq_false_iff_exists_mem]
  constructor
  · rintro ⟨⟨h1, h2⟩, h3⟩
    refine ⟨fun hnil => ?_, h2, h3⟩
    rw [hnil] at h1
    simp at h1
  · rintro ⟨h1, h2, h3⟩
    refine ⟨⟨?_, h2⟩, h3⟩
    rcases List.exists_mem_of_ne_nil _ h1 with ⟨x, hx⟩
    exact ⟨x, hx⟩

theorem sortedUnknowns_perm (items : List KizItem) :
    List.Perm (sortedUnknowns items)
      ((withIdx 0 items).filter fun p => p.2.size.isNone) :=
  List.perm_insertionSort idxItemLe _

theorem sortedUnknowns_sorted (items : List KizItem) :
    (sortedUnknowns items).Pairwise idxItemLe := by
  haveI : IsTotal (Nat × KizItem) idxItemLe := ⟨fun a b => leCh_total _ _⟩
  haveI : IsTrans (Nat × KizItem) idxItemLe := ⟨fun a b c => leCh_trans _ _ _⟩
  exact List.sorted_insertionSort idxItemLe _

theorem sortedUnknowns_fst_nodup (items : List KizItem) :
    ((sortedUnknowns items).map fun p => p.1).Nodup := by
  have hperm := (sortedUnknowns_perm items).map fun p => p.1
  rw [List.Perm.nodup_iff hperm]
  exact ((List.filter_sublist _).map _).nodup (withIdx_fst_nodup items 0)

theorem mem_sortedUnknowns (items : List KizItem) (p : Nat × KizItem)
    (h : p ∈ sortedUnknowns items) :
    items[p.1]? = some p.2 ∧ p.2.size = none := by
  have hmem := (sortedUnknowns_perm items).mem_iff.mp h
  rw [List.mem_filter] at hmem
  have h2 := mem_withIdx items 0 p hmem.1
  refine ⟨by simpa using h2.2, Option.isNone_iff_eq_none.mp hmem.2⟩

theorem applyFallback_getElem? (items : List KizItem) (missing : List Nat) (i : Nat) :
    (applyFallback items missing)[i]? = (items[i]?).map fun it =>
      match lookupNat i (((sortedUnknowns items).zip missing).map fun pv => (pv.1.1, pv.2)) with
      | some s => { it with size := some s, info := { it.info with size := Nat.repr s } }
      | none => it := by
  simp only [applyFallback]
  rw [List.getElem?_map, withIdx_getElem?]
  cases items[i]? <;> simp

theorem assign_fst_nodup (items : List KizItem) (missing : List Nat) :
    ((((sortedUnknowns items).zip missing).map fun pv => (pv.1.1, pv.2)).map
      fun p => p.1).Nodup := by
  have h1 : ((((sortedUnknowns items).zip missing).map fun pv => (pv.1.1, pv.2)).map
      fun p => p.1) = (((sortedUnknowns items).zip missing).map Prod.fst).map
        fun p => p.1 := by
    simp [List.map_map, Function.comp]
  rw [h1, map_fst_zip_eq_take, List.map_take]
  exact ((List.take_sublist _ _).nodup) (sortedUnknowns_fst_nodup items)

theorem assign_keys_unknown (items : List KizItem) (missing : List Nat) (i : Nat)
    (h : i ∈ (((sortedUnknowns items).zip missing).map fun pv => (pv.1.1, pv.2)).map
      fun p => p.1) :
    ∃ x, items[i]? = some x ∧ x.size = none := by
  have h1 : ((((sortedUnknowns items).zip missing).map fun pv => (pv.1.1, pv.2)).map
      fun p => p.1) = (((sortedUnknowns items).zip missing).map Prod.fst).map
        fun p => p.1 := by
    simp [List.map_map, Function.comp]
  rw [h1, map_fst_zip_eq_take] at h
  simp only [List.mem_map] at h
  obtain ⟨p, hp, hpe⟩ := h
  have hmem : p ∈ sortedUnknowns items :=
    List.mem_of_mem_take hp
  obtain ⟨hgot, hnone⟩ := mem_sortedUnknowns items p hmem
  exact ⟨p.2, hpe ▸ hgot, hnone⟩

end PdfAssembler

namespace PdfAssembler

/-- C1: the positional fallback runs if and only if at least one record has
no parsed size, the number of code files equals the catalog size, and the
number of unresolved records equals the number of catalog sizes absent
from every parsed size.  When it runs, the j-th unresolved record in file
name order receives the j-th missing size (the missing sizes being listed
in strictly ascending order, and the unresolved records being sorted
ascending by name), records with a parsed size are untouched; when it does
not run, the record list is completely unchanged. -/
theorem c1_fallback_exact (n : Nat) (items : List KizItem) :
    (fallbackEligible n items = true ↔
      ((items.filter fun it => it.size.isNone) ≠ [] ∧ n = size_order.length ∧
        (items.filter fun it => it.size.isNone).length = (missingSizes items).length)) ∧
    (fallbackEligible n items = false → resolveSizes n items = items) ∧
    (fallbackEligible n items = true →
      (∀ (j i : Nat) (it : KizItem) (s : Nat), (sortedUnknowns items)[j]? = some (i, it) →
        (missingSizes items)[j]? = some s →
        (resolveSizes n items)[i]? =
          some { it with size := some s, info := { it.info with size := Nat.repr s } }) ∧
      (∀ (i : Nat) (it : KizItem), items[i]? = some it → it.size.isSome = true →
        (resolveSizes n items)[i]? = some it)) ∧
    (missingSizes items).Pairwise (· < ·) ∧
    (sortedUnknowns items).Pairwise idxItemLe := by
  refine ⟨fallbackEligible_iff n items, ?_, ?_, ?_, sortedUnknowns_sorted items⟩
  · intro h
    simp [resolveSizes, h]
  · intro helig
    have hres : resolveSizes n items = applyFallback items (missingSizes items) := by
      simp [resolveSizes, helig]
    constructor
    · intro j i it s hj hs
      have hzip := zip_getElem?_of _ _ j (i, it) s hj hs
      have hzmem : ((i, it), s) ∈ (sortedUnknowns items).zip (missingSizes items) := by
        rcases List.getElem?_eq_some_iff.mp hzip with ⟨hlt, hval⟩
        exact hval ▸ List.getElem_mem _
      have hamem : (i, s) ∈ ((sortedUnknowns items).zip (missingSizes items)).map
          fun pv => (pv.1.1, pv.2) :=
        List.mem_map_of_mem _ hzmem
      have hlook := lookupNat_of_mem_nodup i s _ (assign_fst_nodup items (missingSizes items)) hamem
      have hsu : (i, it) ∈ sortedUnknowns items := by
        rcases List.getElem?_eq_some_iff.mp hj with ⟨hlt, hval⟩
        exact hval ▸ List.getElem_mem _
      have hit := (mem_sortedUnknowns items (i, it) hsu).1
      rw [hres, applyFallback_getElem?, hit]
      simp [hlook]
    · intro i it hit hsome
      have hnot : i ∉ ((((sortedUnknowns items).zip (missingSizes items)).map
          fun pv => (pv.1.1, pv.2)).map fun p => p.1) := by
        intro hcontr
        obtain ⟨x, hx, hxnone⟩ := assign_keys_unknown items (missingSizes items) i hcontr
        rw [hit] at hx
        cases hx
        rw [hxnone] at hsome
        simp at hsome
      have hlook := lookupNat_eq_none i _ hnot
      rw [hres, applyFallback_getElem?, hit]
      simp [hlook]
  · refine List.Pairwise.sublist (List.filter_sublist _) ?_
    decide

theorem c1_witness :
    (resolveSizes 8 (kizItemsOf demoFiles8))[4]? =
      some ⟨⟨"u1 x.pdf", 1, some ["A"]⟩, ⟨"u1 x", "", "50"⟩, some 50⟩ :=
  ((c1_fallback_exact 8 (kizItemsOf demoFiles8)).2.2.1 (by decide)).1 0 4
    ⟨⟨"u1 x.pdf", 1, some ["A"]⟩, ⟨"u1 x", "", ""⟩, none⟩ 50 (by decide) (by decide)

/-- C2 counterexample: on `demoFiles8` the records for `k1 … k4` carry the
parsed sizes 42, 44, 46, 48 — so NOT all code documents lack a parsable
size — and the gap is computed from the parsed sizes, not from the
label-derived page pairs (the resolver never sees the label map); yet the
fallback still fires and assigns size 50 to the first unresolved record,
contradicting the claimed "only when ALL code documents lack a parsable
size". -/
theorem c2_counterexample :
    ((kizItemsOf demoFiles8).map fun it => it.info.size)[0]? = some "42" ∧
    ((kizItemsOf demoFiles8)[4]?).map (fun it => it.size) = some none ∧
    ((resolveSizes demoFiles8.length (kizItemsOf demoFiles8))[4]?).map
      (fun it => it.size) = some (some 50) :=
  ⟨by decide, by decide, by decide⟩

/-- C2 as amended: a record's final size differs from its parsed one only
when the fallback guard held — at least one record lacks a parsed size
(not necessarily all), the code-document count equals the catalog size,
and the unresolved count equals the count of catalog sizes absent from the
parsed sizes (not from the label-derived pairs) — and only for records
that lacked a parsed size; whenever the guard fails every record is left
unchanged (reported and skipped, never guessed). -/
theorem c2_guarded_fallback (n : Nat) (items : List KizItem) :
    (∀ i : Nat, (resolveSizes n items)[i]? ≠ items[i]? →
      ((∃ it : KizItem, items[i]? = some it ∧ it.size = none) ∧
        (items.filter fun it => it.size.isNone) ≠ [] ∧ n = size_order.length ∧
        (items.filter fun it => it.size.isNone).length = (missingSizes items).length)) ∧
    (∀ (i : Nat) (it : KizItem), items[i]? = some it → it.size = none →
      fallbackEligible n items = false →
      (resolveSizes n items)[i]? = some it) := by
  constructor
  · intro i hne
    by_cases helig : fallbackEligible n items = true
    · have hres : resolveSizes n items = applyFallback items (missingSizes items) := by
        simp [resolveSizes, helig]
      have hprops := (fallbackEligible_iff n items).mp helig
      refine ⟨?_, hprops⟩
      rw [hres, applyFallback_getElem?] at hne
      cases hit : items[i]? with
      | none => rw [hit] at hne; simp at hne
      | some it =>
        rw [hit] at hne
        cases hlook : lookupNat i (((sortedUnknowns items).zip (missingSizes items)).map
            fun pv => (pv.1.1, pv.2)) with
        | none => rw [show ((some it).map fun it =>
            match lookupNat i (((sortedUnknowns items).zip (missingSizes items)).map
              fun pv => (pv.1.1, pv.2)) with
            | some s => { it with size := some s, info := { it.info with size := Nat.repr s } }
            | none => it) = some it by simp [hlook]] at hne; exact absurd rfl hne
        | some s =>
          obtain ⟨x, hx, hxnone⟩ := assign_keys_unknown items (missingSizes items) i
            (lookupNat_mem_keys i s _ hlook)
          rw [hit] at hx
          cases hx
          exact ⟨it, rfl, hxnone⟩
    · have : resolveSizes n items = items := by
        simp [resolveSizes, Bool.eq_false_iff.mpr helig]
      rw [this] at hne
      exact absurd rfl hne
  · intro i it hit _ hfalse
    have : resolveSizes n items = items := by
      simp [resolveSizes, hfalse]
    rw [this, hit]

theorem c2_witness :
    (resolveSizes 7 (List.take 7 (kizItemsOf demoFiles8)))[4]? =
      some ⟨⟨"u1 x.pdf", 1, some ["A"]⟩, ⟨"u1 x", "", ""⟩, none⟩ :=
  (c2_guarded_fallback 7 (List.take 7 (kizItemsOf demoFiles8))).2 4
    ⟨⟨"u1 x.pdf", 1, some ["A"]⟩, ⟨"u1 x", "", ""⟩, none⟩ (by decide) (by decide) (by decide)

theorem c8_witness :
    (∀ b ∈ [((["x"], "Размер: 42", 42) : List String × String × Nat),
        ([], "Размер: 44", 44)], ∀ t ∈ b.1, find_size_in_text t = none) ∧
    (find_label_pages ⟨"l", 5, some (blockPages
        [((["x"], "Размер: 42", 42) : List String × String × Nat),
          ([], "Размер: 44", 44)] ["y"])⟩).length = 2 :=
  ⟨by decide,
    (c8_scan_result_shape.2.2 "l" 5
      [((["x"], "Размер: 42", 42) : List String × String × Nat), ([], "Размер: 44", 44)]
      ["y"] (by decide) (by decide) (by decide) (by decide)).2⟩

end PdfAssembler

namespace PdfAssembler

/-- C5: for a readable code document, the assembled page sequence is, for
each code page P in order, label page 1, label page 2, P, P; hence the
output length is four times the code document's page count (in particular
for every non-empty code document). -/
theorem c5_assemble_interleaves (t q : Page) (ps : List Page) :
    assemble_pdf_for_size t q (some ps) = some (ps.flatMap fun p => [t, q, p, p]) ∧
    (assemblePages t q ps).length = 4 * ps.length := by
  refine ⟨?_, ?_⟩
  · simp [assemble_pdf_for_size, assemblePages_eq]
  · rw [assemblePages_eq, length_bind_four]

/-- C9: a page on which no size marker is detected leaves the scanner
state (`current_size` and `first_page`, and the result map) unchanged, in
every state. -/
theorem c9_no_marker_no_change (st : ScanState) (i : Nat) (t : String)
    (h : find_size_in_text t = none) : scanStep st i t = st := by
  simp [scanStep, h]

theorem c9_witness :
    find_size_in_text "hello" = none ∧
    scanStep ⟨[(42, 0, 1)], some 44, some 2⟩ 7 "hello" = ⟨[(42, 0, 1)], some 44, some 2⟩ :=
  ⟨by decide, c9_no_marker_no_change _ _ _ (by decide)⟩

/-- C7 counterexample: the claim fails on the code in both clauses.  For
the one-token name "abc.pdf" the claim predicts article = "abc" (all
tokens when fewer than two exist) but the code leaves the article empty;
for "A B C 042.pdf" the size is found via the literal token "042" at index
3 > 2, so the claim predicts color = "C", but the code searches for the
canonical string "42", does not find it among the tokens, and returns all
tokens from index 2 onward. -/
theorem c7_counterexample :
    ((extract_kiz_info "abc.pdf").article = "" ∧
      claimArticleOf (tokensOf (stemOf "abc.pdf")) = "abc" ∧ ("" : String) ≠ "abc") ∧
    ((extract_kiz_info "A B C 042.pdf").color = "C 042" ∧ ("C 042" : String) ≠ "C") := by
  exact ⟨⟨by decide, by decide, by decide⟩, ⟨by decide, by decide⟩⟩

/-- C7 as amended: article = the first two tokens joined by a single space
when at least two tokens exist and the empty string otherwise; color = the
tokens strictly between index 2 and the first index at which the canonical
decimal string of the parsed size occurs as a token, when it occurs as a
token at first index greater than 2, and all tokens from index 2 onward
otherwise (size string not a token — including sizes found through a
leading-zero token or the regex fallback — size absent, or first index at
most 2). -/
theorem c7_amended (fn : String) :
    (extract_kiz_info fn).article = specArticleOf (tokensOf (stemOf fn)) ∧
    (extract_kiz_info fn).color =
      specColorOf (tokensOf (stemOf fn)) (extract_kiz_info fn).size := by
  constructor
  · simp only [extract_kiz_info, specArticleOf]
  · simp only [extract_kiz_info, specColorOf]
    set parts := tokensOf (stemOf fn) with hparts
    set size :=
      (match firstValidSize parts.reverse with
      | some n => Nat.repr n
      | none =>
        match findRazm (stemOf fn).toList with
        | some n => if size_order.contains n then Nat.repr n else ""
        | none => "") with hsize
    by_cases h1 : size = ""
    · simp [h1]
    · by_cases h2 : parts.contains size
      · have h2' : size ∈ parts := by
          simpa using h2
        by_cases h3 : 2 < idxOfStr size parts
        · simp [h1, h2, h2', h3]
        · simp [h1, h2, h2', h3]
      · have h2' : ¬ size ∈ parts := by
          simpa using h2
        simp [h1, h2, h2']

end PdfAssembler

namespace PdfAssembler

theorem foldl_assembleStep (outDir : String) (lp : List Page)
    (spp : List (Nat × Nat × Nat)) (items : List KizItem) :
    ∀ (w : List (String × List Page)) (c : List String),
      items.foldl (assembleStep outDir lp spp) (w, c) =
        (w ++ items.filterMap fun it => (emitFor outDir lp spp it).map fun e => (e.1, e.2.1),
          c ++ ((items.filterMap (emitFor outDir lp spp)).filter
            fun e => decide (0 < e.2.2)).map fun e => e.1) := by
  induction items with
  | nil => intro w c; simp
  | cons it items ih =>
    intro w c
    show items.foldl _ (assembleStep outDir lp spp (w, c) it) = _
    cases he : emitFor outDir lp spp it with
    | none =>
      rw [show assembleStep outDir lp spp (w, c) it = (w, c) by simp [assembleStep, he]]
      rw [ih w c]
      simp [he]
    | some e =>
      obtain ⟨p, pgs, cnt⟩ := e
      by_cases hcnt : 0 < cnt
      · rw [show assembleStep outDir lp spp (w, c) it = (w ++ [(p, pgs)], c ++ [p]) by
          simp [assembleStep, he, hcnt]]
        rw [ih]
        simp [he, hcnt]
      · rw [show assembleStep outDir lp spp (w, c) it = (w ++ [(p, pgs)], c) by
          simp [assembleStep, he, hcnt]]
        rw [ih]
        simp [he, hcnt]

theorem perSizeFold_eq (outDir : String) (lp : List Page)
    (spp : List (Nat × Nat × Nat)) (items : List KizItem) :
    perSizeFold outDir lp spp items =
      (items.filterMap fun it => (emitFor outDir lp spp it).map fun e => (e.1, e.2.1),
        ((items.filterMap (emitFor outDir lp spp)).filter
          fun e => decide (0 < e.2.2)).map fun e => e.1) := by
  have := foldl_assembleStep outDir lp spp items [] []
  simpa [perSizeFold] using this

theorem labelFileOf_eq_none_iff (files : List PdfFile) :
    labelFileOf files = none ↔ allPdfs files = [] := by
  cases hap : allPdfs files <;> simp [labelFileOf, hap]

theorem process_no_inputs (cc : Bool) (outDir : String) (files : List PdfFile)
    (h : allPdfs files = []) : process cc outDir files = .ok ⟨false, [], []⟩ := by
  have hl : labelFileOf files = none := (labelFileOf_eq_none_iff files).mpr h
  simp [process, hl]

theorem process_label_unreadable (cc : Bool) (outDir : String) (files : List PdfFile)
    (lb : PdfFile) (hl : labelFileOf files = some lb) (hc : lb.content = none) :
    process cc outDir files = .error () := by
  simp [process, hl, hc]

theorem process_no_pairs (cc : Bool) (outDir : String) (files : List PdfFile)
    (lb : PdfFile) (ps : List Page) (hl : labelFileOf files = some lb)
    (hc : lb.content = some ps) (hsp : find_label_pages lb = []) :
    process cc outDir files = .ok ⟨false, [], []⟩ := by
  simp [process, hl, hc, hsp]

theorem process_ok_plain (cc : Bool) (outDir : String) (files : List PdfFile)
    (lb : PdfFile) (ps : List Page) (hl : labelFileOf files = some lb)
    (hc : lb.content = some ps) (hsp : find_label_pages lb ≠ [])
    (hcase : cc = false ∨
      (perSizeFold outDir ps (find_label_pages lb) (itemsOf files)).2 = []) :
    process cc outDir files = .ok ⟨true,
      (perSizeFold outDir ps (find_label_pages lb) (itemsOf files)).2,
      (perSizeFold outDir ps (find_label_pages lb) (itemsOf files)).1⟩ := by
  have hspe : (find_label_pages lb).isEmpty = false := by
    simpa [List.isEmpty_iff] using hsp
  rcases hcase with hcc | hpr
  · subst hcc
    simp [process, hl, hc, hspe]
  · simp [process, hl, hc, hspe, hpr]

theorem process_ok_combined (cc : Bool) (outDir : String) (files : List PdfFile)
    (lb : PdfFile) (ps : List Page) (it0 : KizItem) (rest : List KizItem)
    (pr : List (String × List Page) × List String)
    (hl : labelFileOf files = some lb) (hc : lb.content = some ps)
    (hsp : find_label_pages lb ≠ []) (hcc : cc = true)
    (hitems : itemsOf files = it0 :: rest)
    (hpr : perSizeFold outDir ps (find_label_pages lb) (itemsOf files) = pr)
    (hne : pr.2 ≠ []) :
    process cc outDir files = .ok ⟨true,
      pr.2 ++ [outDir ++ "/" ++ combinedFilename it0.info],
      pr.1 ++ [(outDir ++ "/" ++ combinedFilename it0.info,
        create_combined_pdf (pr.2.map fun p => (p, readLast pr.1 p)))]⟩ := by
  subst hcc
  subst hpr
  have hspe : (find_label_pages lb).isEmpty = false := by
    simpa [List.isEmpty_iff] using hsp
  have hne' : (perSizeFold outDir ps (find_label_pages lb) (itemsOf files)).2.isEmpty = false := by
    simpa [List.isEmpty_iff] using hne
  rw [hitems] at hne' ⊢
  simp [process, hl, hc, hspe, hitems, hne']

end PdfAssembler

namespace PdfAssembler

/-- C3: the pipeline returns failure — `(False, [])` — exactly when either
no input documents survive discovery or the label scan yields zero size
pairs; a false result always carries the empty list; and whenever inputs
exist, the label file is readable and the scan is non-empty, the pipeline
returns success whatever happens to the individual code documents
(unreadable or unresolvable ones are merely skipped, possibly leaving a
successful run with an empty output list). -/
theorem c3_failure_exactly_two (cc : Bool) (outDir : String) (files : List PdfFile) :
    ((process cc outDir files = .ok ⟨false, [], []⟩) ↔
      (allPdfs files = [] ∨ ∃ lb ps, labelFileOf files = some lb ∧
        lb.content = some ps ∧ find_label_pages lb = [])) ∧
    (∀ r, process cc outDir files = .ok r → r.ok = false → r = ⟨false, [], []⟩) ∧
    (∀ lb ps, labelFileOf files = some lb → lb.content = some ps →
      find_label_pages lb ≠ [] →
      ∃ r, process cc outDir files = .ok r ∧ r.ok = true) := by
  cases hl : labelFileOf files with
  | none =>
    have hap := (labelFileOf_eq_none_iff files).mp hl
    have hp := process_no_inputs cc outDir files hap
    refine ⟨?_, ?_, ?_⟩
    · simp [hp, hap]
    · intro r hr _
      rw [hp] at hr
      injection hr with h
      exact h.symm
    · intro lb ps hlb
      exact absurd hlb (by simp)
  | some lb =>
    have hapne : allPdfs files ≠ [] := by
      intro h
      rw [(labelFileOf_eq_none_iff files).mpr h] at hl
      exact Option.noConfusion hl
    cases hc : lb.content with
    | none =>
      have hp := process_label_unreadable cc outDir files lb hl hc
      refine ⟨?_, ?_, ?_⟩
      · constructor
        · intro h
          rw [hp] at h
          exact absurd h (by simp)
        · rintro (h | ⟨lb', ps', hlb', hc', _⟩)
          · exact absurd h hapne
          · injection hlb' with he
            rw [← he, hc] at hc'
            exact Option.noConfusion hc'
      · intro r hr
        rw [hp] at hr
        exact absurd hr (by simp)
      · intro lb' ps' hlb' hc' _
        injection hlb' with he
        rw [← he, hc] at hc'
        exact absurd hc' (by simp)
    | some ps =>
      by_cases hsp : find_label_pages lb = []
      · have hp := process_no_pairs cc outDir files lb ps hl hc hsp
        refine ⟨?_, ?_, ?_⟩
        · simp only [hp]
          constructor
          · intro _
            exact Or.inr ⟨lb, ps, rfl, hc, hsp⟩
          · intro _
            simp
        · intro r hr _
          rw [hp] at hr
          injection hr with h
          exact h.symm
        · intro lb' ps' hlb' hc' hsp'
          injection hlb' with he
          subst he
          exact absurd hsp hsp'
      · have hex : ∃ r, process cc outDir files = .ok r ∧ r.ok = true := by
          by_cases hcase : cc = true ∧
              (perSizeFold outDir ps (find_label_pages lb) (itemsOf files)).2 ≠ []
          · obtain ⟨hcc, hne⟩ := hcase
            cases hitems : itemsOf files with
            | nil =>
              exfalso
              apply hne
              rw [hitems]
              rfl
            | cons it0 rest =>
              exact ⟨_, process_ok_combined cc outDir files lb ps it0 rest _ hl hc hsp
                hcc hitems rfl hne, rfl⟩
          · have hcase' : cc = false ∨
                (perSizeFold outDir ps (find_label_pages lb) (itemsOf files)).2 = [] := by
              by_cases hcc : cc = true
              · right
                by_contra hne
                exact hcase ⟨hcc, hne⟩
              · left
                exact Bool.eq_false_iff.mpr hcc
            exact ⟨_, process_ok_plain cc outDir files lb ps hl hc hsp hcase', rfl⟩
        obtain ⟨r0, hr0, hok0⟩ := hex
        refine ⟨?_, ?_, ?_⟩
        · constructor
          · intro h
            rw [hr0] at h
            injection h with he
            rw [he] at hok0
            exact absurd hok0 (by simp)
          · rintro (h | ⟨lb', ps', hlb', hc', hsp'⟩)
            · exact absurd h hapne
            · injection hlb' with he
              subst he
              exact absurd hsp' hsp
        · intro r hr hok
          rw [hr0] at hr
          injection hr with he
          rw [← he] at hok
          rw [hok0] at hok
          exact absurd hok (by simp)
        · intro lb' ps' _ _ _
          exact ⟨r0, hr0, hok0⟩

theorem c3_witness :
    ∃ r, process true "out" [⟨"label.pdf", 10, some ["Размер: 42", "Размер: 42"]⟩] =
      .ok r ∧ r.ok = true :=
  (c3_failure_exactly_two true "out"
      [⟨"label.pdf", 10, some ["Размер: 42", "Размер: 42"]⟩]).2.2
    ⟨"label.pdf", 10, some ["Размер: 42", "Размер: 42"]⟩
    ["Размер: 42", "Размер: 42"] (by decide) (by decide) (by decide)

/-- C10: the label scanner validates nothing against the catalog — any two
consecutive pages bearing the same non-zero marker value produce an entry
for that value, catalog member or not — and on a concrete input whose only
marker value is 99 (outside the catalog) the zero-size-pairs fatal check
passes and the run ends with success and an empty produced list (a code
document parsed to size 42 finds no label pair for it and is skipped). -/
theorem c10_marker_not_validated :
    (∀ (t : String) (v : Nat) (nm : String) (b : Nat),
      find_size_in_text t = some v → 0 < v →
      find_label_pages ⟨nm, b, some [t, t]⟩ = [(v, 0, 1)]) ∧
    process true "out" [⟨"label.pdf", 10, some ["Размер: 99", "Размер: 99"]⟩,
      ⟨"k 1 x 42.pdf", 1, some ["A"]⟩] = .ok ⟨true, [], []⟩ := by
  constructor
  · intro t v nm b h hv
    have hv' : v ≠ 0 := Nat.pos_iff_ne_zero.mp hv
    simp [find_label_pages, scanPages, scanStep, h, hv', upsert]
  · rfl

theorem c10_witness :
    find_size_in_text "Размер: 99" = some 99 ∧ 99 ∉ size_order ∧
    find_label_pages ⟨"label.pdf", 10, some ["Размер: 99", "Размер: 99"]⟩ = [(99, 0, 1)] :=
  ⟨by decide, by decide,
    c10_marker_not_validated.1 "Размер: 99" 99 "label.pdf" 10 (by decide) (by decide)⟩

end PdfAssembler

namespace PdfAssembler

theorem ok_inj {r1 r2 : ProcessResult}
    (h : (Except.ok r1 : Except Unit ProcessResult) = .ok r2) : r1 = r2 := by
  injection h

theorem emitFor_some (outDir : String) (lp : List Page) (spp : List (Nat × Nat × Nat))
    (it : KizItem) (e : String × List Page × Nat)
    (h : emitFor outDir lp spp it = some e) :
    ∃ s : Nat, it.size = some s ∧ e.1 = outDir ++ "/" ++ outputFilename it.info s := by
  unfold emitFor at h
  cases hsz : it.size with
  | none => rw [hsz] at h; exact absurd h (by simp)
  | some s =>
    rw [hsz] at h
    by_cases hs0 : s = 0
    · simp [hs0] at h
    · simp only [if_neg hs0] at h
      cases hlk : alistLookup s spp with
      | none => simp [hlk] at h
      | some tq =>
        obtain ⟨tp, qp⟩ := tq
        simp only [hlk] at h
        cases hct : it.file.content with
        | none => simp [hct] at h
        | some kz =>
          simp only [hct] at h
          cases hg1 : lp[tp]? with
          | none => simp [hg1] at h
          | some tpg =>
            cases hg2 : lp[qp]? with
            | none => simp [hg1, hg2] at h
            | some qpg =>
              simp only [hg1, hg2, Option.some_inj] at h
              exact ⟨s, rfl, by rw [← h]⟩

end PdfAssembler

namespace PdfAssembler

/-- C4 counterexample: the claimed templates concatenate the article and
the color with no separator, but the code puts an underscore between them
(in the per-size name and in the combined name).  On a file parsed to
article "Ю 1128", color "черный", size 42 the produced names are
`Сборка_Ю1128_черный_42.pdf` and `Сборка_Ю1128_черный_все_размеры.pdf`,
not the claimed `Сборка_Ю1128черный_42.pdf` /
`Сборка_Ю1128черный_все_размеры.pdf`. -/
theorem c4_counterexample :
    (process false "out" [⟨"label.pdf", 100, some ["Размер: 42", "Размер: 42"]⟩,
        ⟨"Ю 1128 черный 42.pdf", 1, some ["K"]⟩] =
      .ok ⟨true, ["out/Сборка_Ю1128_черный_42.pdf"],
        [("out/Сборка_Ю1128_черный_42.pdf", ["Размер: 42", "Размер: 42", "K", "K"])]⟩) ∧
    (extract_kiz_info "Ю 1128 черный 42.pdf" = ⟨"Ю 1128", "черный", "42"⟩) ∧
    ("out/Сборка_Ю1128_черный_42.pdf" ≠
      "out" ++ "/" ++ claimPerSizeName "Ю 1128" "черный" 42) ∧
    (process true "out" [⟨"label.pdf", 100, some ["Размер: 42", "Размер: 42"]⟩,
        ⟨"Ю 1128 черный 42.pdf", 1, some ["K"]⟩] =
      .ok ⟨true, ["out/Сборка_Ю1128_черный_42.pdf",
          "out/Сборка_Ю1128_черный_все_размеры.pdf"],
        [("out/Сборка_Ю1128_черный_42.pdf", ["Размер: 42", "Размер: 42", "K", "K"]),
          ("out/Сборка_Ю1128_черный_все_размеры.pdf",
            ["Размер: 42", "Размер: 42", "K", "K"])]⟩) ∧
    ("out/Сборка_Ю1128_черный_все_размеры.pdf" ≠
      "out" ++ "/" ++ claimCombinedName "Ю 1128" "черный") :=
  ⟨rfl, by decide, by decide, rfl, by decide⟩

/-- C4 as amended: every per-size output path produced by a run is
`<outDir>/Сборка_<articleNoSpaces>_<color>_<size>.pdf` — with an
underscore between the article, the color and the size — where empty
article/color are replaced by the placeholders NOARTICLE/NOCOLOR (blanks
removed from the article, the color stripped), and the size is the
record's resolved size; the combined output, when one is created, is the
last returned path and equals
`<outDir>/Сборка_<articleNoSpaces>_<color>_все_размеры.pdf` built from the
first record's article and color, with no placeholder substitution. -/
theorem c4_name_templates :
    (∀ (outDir : String) (files : List PdfFile) (r : ProcessResult),
      process false outDir files = .ok r →
      ∀ p ∈ r.created, ∃ it, it ∈ itemsOf files ∧ ∃ s : Nat, it.size = some s ∧
        p = outDir ++ "/" ++ ("Сборка_" ++
          removeSpaces (orDefault it.info.article "NOARTICLE") ++ "_" ++
          stripEnds (orDefault it.info.color "NOCOLOR") ++ "_" ++
          Nat.repr s ++ ".pdf")) ∧
    (∀ (outDir : String) (files : List PdfFile) (r : ProcessResult),
      process true outDir files = .ok r → r.created ≠ [] →
      ∃ it0 rest, itemsOf files = it0 :: rest ∧
        r.created.getLast? = some (outDir ++ "/" ++ ("Сборка_" ++
          removeSpaces it0.info.article ++ "_" ++ it0.info.color ++
          "_все_размеры.pdf"))) := by
  constructor
  · intro outDir files r hr p hp
    cases hl : labelFileOf files with
    | none =>
      have hap := (labelFileOf_eq_none_iff files).mp hl
      rw [process_no_inputs false outDir files hap] at hr
      rw [← ok_inj hr] at hp
      simp at hp
    | some lb =>
      cases hc : lb.content with
      | none =>
        rw [process_label_unreadable false outDir files lb hl hc] at hr
        exact absurd hr (by simp)
      | some ps =>
        by_cases hsp : find_label_pages lb = []
        · rw [process_no_pairs false outDir files lb ps hl hc hsp] at hr
          rw [← ok_inj hr] at hp
          simp at hp
        · rw [process_ok_plain false outDir files lb ps hl hc hsp (Or.inl rfl)] at hr
          rw [← ok_inj hr] at hp
          rw [show (⟨true, (perSizeFold outDir ps (find_label_pages lb) (itemsOf files)).2,
              (perSizeFold outDir ps (find_label_pages lb) (itemsOf files)).1⟩ :
                ProcessResult).created =
            (perSizeFold outDir ps (find_label_pages lb) (itemsOf files)).2 from rfl,
            perSizeFold_eq] at hp
          rw [List.mem_map] at hp
          obtain ⟨e, he2, hpe⟩ := hp
          have he3 := List.mem_of_mem_filter he2
          rw [List.mem_filterMap] at he3
          obtain ⟨it, hit, hemit⟩ := he3
          obtain ⟨s, hs, hpath⟩ := emitFor_some _ _ _ _ _ hemit
          exact ⟨it, hit, s, hs, by rw [← hpe, hpath]; rfl⟩
  · intro outDir files r hr hcne
    cases hl : labelFileOf files with
    | none =>
      have hap := (labelFileOf_eq_none_iff files).mp hl
      rw [process_no_inputs true outDir files hap] at hr
      rw [← ok_inj hr] at hcne
      exact absurd rfl hcne
    | some lb =>
      cases hc : lb.content with
      | none =>
        rw [process_label_unreadable true outDir files lb hl hc] at hr
        exact absurd hr (by simp)
      | some ps =>
        by_cases hsp : find_label_pages lb = []
        · rw [process_no_pairs true outDir files lb ps hl hc hsp] at hr
          rw [← ok_inj hr] at hcne
          exact absurd rfl hcne
        · by_cases hpr2 : (perSizeFold outDir ps (find_label_pages lb) (itemsOf files)).2 = []
          · rw [process_ok_plain true outDir files lb ps hl hc hsp (Or.inr hpr2)] at hr
            rw [← ok_inj hr] at hcne
            exact absurd hpr2 hcne
          · cases hitems : itemsOf files with
            | nil =>
              exfalso
              apply hpr2
              rw [hitems]
              rfl
            | cons it0 rest =>
              rw [process_ok_combined true outDir files lb ps it0 rest _ hl hc hsp rfl
                hitems rfl hpr2] at hr
              refine ⟨it0, rest, rfl, ?_⟩
              rw [← ok_inj hr]
              rw [show (⟨true,
                  (perSizeFold outDir ps (find_label_pages lb) (itemsOf files)).2 ++
                    [outDir ++ "/" ++ combinedFilename it0.info],
                  (perSizeFold outDir ps (find_label_pages lb) (itemsOf files)).1 ++
                    [(outDir ++ "/" ++ combinedFilename it0.info,
                      create_combined_pdf
                        ((perSizeFold outDir ps (find_label_pages lb) (itemsOf files)).2.map
                          fun p => (p, readLast
                            (perSizeFold outDir ps (find_label_pages lb) (itemsOf files)).1
                            p)))]⟩ : ProcessResult).created =
                (perSizeFold outDir ps (find_label_pages lb) (itemsOf files)).2 ++
                  [outDir ++ "/" ++ combinedFilename it0.info] from rfl]
              rw [List.getLast?_concat]
              exact rfl

theorem c4_witness :
    ∃ it, it ∈ itemsOf [⟨"label.pdf", 100, some ["Размер: 42", "Размер: 42"]⟩,
        ⟨"Ю 1128 черный 42.pdf", 1, some ["K"]⟩] ∧ ∃ s : Nat, it.size = some s ∧
      "out/Сборка_Ю1128_черный_42.pdf" = "out" ++ "/" ++ ("Сборка_" ++
        removeSpaces (orDefault it.info.article "NOARTICLE") ++ "_" ++
        stripEnds (orDefault it.info.color "NOCOLOR") ++ "_" ++
        Nat.repr s ++ ".pdf") :=
  c4_name_templates.1 "out"
    [⟨"label.pdf", 100, some ["Размер: 42", "Размер: 42"]⟩,
      ⟨"Ю 1128 черный 42.pdf", 1, some ["K"]⟩]
    ⟨true, ["out/Сборка_Ю1128_черный_42.pdf"],
      [("out/Сборка_Ю1128_черный_42.pdf", ["Размер: 42", "Размер: 42", "K", "K"])]⟩
    rfl "out/Сборка_Ю1128_черный_42.pdf" (by decide)

end PdfAssembler

namespace PdfAssembler

theorem flatMap_congr (l : List α) (F G : α → List β) (h : ∀ a ∈ l, F a = G a) :
    l.flatMap F = l.flatMap G := by
  induction l with
  | nil => rfl
  | cons a l ih =>
    rw [List.flatMap_cons, List.flatMap_cons, h a (List.mem_cons_self a l),
      ih fun b hb => h b (List.mem_cons_of_mem a hb)]

theorem flatMap_map_comp (l : List α) (f : α → β) (g : β → List γ) :
    (l.map f).flatMap g = l.flatMap fun x => g (f x) := by
  induction l with
  | nil => rfl
  | cons a l ih => simp [List.flatMap_cons, ih]

theorem foldl_if_append (P : α → Bool) (g : α → List β) :
    ∀ (l : List α) (acc : List β),
      l.foldl (fun a x => if P x then a ++ g x else a) acc =
        acc ++ (l.filter P).flatMap g := by
  intro l
  induction l with
  | nil => intro acc; simp
  | cons x l ih =>
    intro acc
    by_cases hx : P x
    · rw [List.foldl_cons, if_pos hx, ih, List.filter_cons, if_pos hx, List.flatMap_cons]
      simp
    · rw [List.foldl_cons, if_neg hx, ih, List.filter_cons, if_neg hx]

theorem create_combined_eq (files : List (String × List Page)) :
    create_combined_pdf files = size_order.flatMap fun s =>
      (files.filter fun f =>
        hasSub ("_" ++ Nat.repr s ++ ".pdf").toList f.1.toList).flatMap fun f => f.2 := by
  have main : ∀ (l : List Nat) (acc : List Page),
      l.foldl (fun acc s => files.foldl (fun acc2 f =>
        if hasSub ("_" ++ Nat.repr s ++ ".pdf").toList f.1.toList then acc2 ++ f.2
        else acc2) acc) acc =
      acc ++ l.flatMap fun s => (files.filter fun f =>
        hasSub ("_" ++ Nat.repr s ++ ".pdf").toList f.1.toList).flatMap fun f => f.2 := by
    intro l
    induction l with
    | nil => intro acc; simp
    | cons s l ih =>
      intro acc
      rw [List.foldl_cons, foldl_if_append, ih, List.flatMap_cons]
      simp
  simpa [create_combined_pdf] using main size_order []

end PdfAssembler

namespace PdfAssembler

/-- C6 counterexample: the combining step selects per-size outputs by
substring search for `_<size>.pdf` over the full path, so a path may match
a foreign size.  A code file named "a_42.pdfb c 44.pdf" (size 44) yields
the output path `out/Сборка_a_42.pdfbc_44_44.pdf`, which contains both
`_42.pdf` and `_44.pdf`; the combined document then contains that size-44
output twice — once during the size-42 pass, before the size-42 output —
so the combined page sequence is not the concatenation of the per-size
outputs in ascending canonical size order. -/
theorem c6_counterexample :
    (process true "out"
        [⟨"label.pdf", 100, some ["Размер: 42", "Размер: 42", "Размер: 44", "Размер: 44"]⟩,
          ⟨"a_42.pdfb c 44.pdf", 1, some ["P1"]⟩, ⟨"x y 42.pdf", 2, some ["P2"]⟩] =
      .ok ⟨true,
        ["out/Сборка_a_42.pdfbc_44_44.pdf", "out/Сборка_xy_42_42.pdf",
          "out/Сборка_a_42.pdfbc_44_все_размеры.pdf"],
        [("out/Сборка_a_42.pdfbc_44_44.pdf", ["Размер: 44", "Размер: 44", "P1", "P1"]),
          ("out/Сборка_xy_42_42.pdf", ["Размер: 42", "Размер: 42", "P2", "P2"]),
          ("out/Сборка_a_42.pdfbc_44_все_размеры.pdf",
            ["Размер: 44", "Размер: 44", "P1", "P1", "Размер: 42", "Размер: 42", "P2", "P2",
              "Размер: 44", "Размер: 44", "P1", "P1"])]⟩) ∧
    (["Размер: 44", "Размер: 44", "P1", "P1", "Размер: 42", "Размер: 42", "P2", "P2",
        "Размер: 44", "Размер: 44", "P1", "P1"] : List Page) ≠
      ["Размер: 42", "Размер: 42", "P2", "P2"] ++ ["Размер: 44", "Размер: 44", "P1", "P1"] :=
  ⟨rfl, by decide⟩

/-- C6 as amended: the combined page sequence is, for each canonical size
in ascending order, the concatenation of every per-size output whose PATH
contains the substring `_<size>.pdf`; when every output path matches
exactly its own size token (and no foreign one), this is precisely the
ascending-size concatenation of the per-size outputs, independent of
creation or enumeration order.  A combined document is created only when
at least one per-size output was recorded: if the assembly loop records
none, the run returns exactly the per-size write set with no combined
entry. -/
theorem c6_combined_order :
    (∀ (outs : List (Nat × String × List Page)),
      (∀ o ∈ outs, ∀ s ∈ size_order,
        (hasSub ("_" ++ Nat.repr s ++ ".pdf").toList o.2.1.toList = true ↔ s = o.1)) →
      create_combined_pdf (outs.map fun o => o.2) =
        size_order.flatMap fun s =>
          (outs.filter fun o => decide (o.1 = s)).flatMap fun o => o.2.2) ∧
    (∀ (cc : Bool) (outDir : String) (files : List PdfFile) (lb : PdfFile) (ps : List Page),
      labelFileOf files = some lb → lb.content = some ps → find_label_pages lb ≠ [] →
      (perSizeFold outDir ps (find_label_pages lb) (itemsOf files)).2 = [] →
      process cc outDir files = .ok ⟨true, [],
        (perSizeFold outDir ps (find_label_pages lb) (itemsOf files)).1⟩) := by
  constructor
  · intro outs h
    rw [create_combined_eq]
    apply flatMap_congr
    intro s hs
    have hfil : (outs.map fun o => o.2).filter
        (fun f => hasSub ("_" ++ Nat.repr s ++ ".pdf").toList f.1.toList) =
        (outs.filter fun o => decide (o.1 = s)).map fun o => o.2 := by
      rw [List.filter_map]
      congr 1
      apply List.filter_congr
      intro o ho
      show hasSub ("_" ++ Nat.repr s ++ ".pdf").toList o.2.1.toList = decide (o.1 = s)
      by_cases hos : s = o.1
      · rw [(h o ho s hs).mpr hos]
        simp [hos.symm]
      · have hfalse : hasSub ("_" ++ Nat.repr s ++ ".pdf").toList o.2.1.toList = false :=
          Bool.not_eq_true _ ▸ Bool.eq_false_iff.mpr
            fun htrue => hos ((h o ho s hs).mp htrue)
        rw [hfalse]
        simp [Ne.symm hos]
    rw [hfil, flatMap_map_comp]
  · intro cc outDir files lb ps hl hc hsp hpr2
    have := process_ok_plain cc outDir files lb ps hl hc hsp (Or.inr hpr2)
    rwa [hpr2] at this

theorem c6_witness :
    create_combined_pdf [("B_44.pdf", ["b"]), ("A_42.pdf", ["a"])] = ["a", "b"] := by
  have h := c6_combined_order.1 [(44, "B_44.pdf", ["b"]), (42, "A_42.pdf", ["a"])]
    (by decide)
  exact h.trans (by decide)

end PdfAssembler
